import Mathlib

/-!
Verification of the multi-armed bandit library `mab.py` (classes `MAB`,
`UCB1`, `TS`, `SoftMax`, `CMAB`).

Python dictionaries are modelled as insertion-ordered association lists
(`Dict`): assigning to a fresh key appends the pair at the end, assigning
to an existing key replaces the value in place, and iteration follows the
list order — exactly the ordering guarantees of CPython dicts that the
source relies on.  Python floats are modelled by `ℚ` (every float is a
rational) except where the source applies transcendental functions
(`math.sqrt`, `math.log`, `math.exp`), where values live in `ℝ`.
Calls to `random.betavariate` / `random.choices` are modelled by oracle
parameters supplying the drawn values.

The file is organised as: all definitions (the embedding of the five
classes), then all theorems.
-/

/-- Insertion-ordered map, mirroring a Python `dict`. -/
abbrev Dict (α β : Type) : Type := List (α × β)

namespace Dict

variable {α β : Type} [DecidableEq α]

/-- Python `d[k]` lookup, as an `Option`. -/
def get? : Dict α β → α → Option β
  | [], _ => none
  | (k, v) :: rest, a => if k = a then some v else get? rest a

/-- Lookup with a default value. -/
def getD (d : Dict α β) (a : α) (v₀ : β) : β := (Dict.get? d a).getD v₀

/-- Python `d[k] = v`: replaces in place if the key exists, appends otherwise. -/
def set : Dict α β → α → β → Dict α β
  | [], a, v => [(a, v)]
  | (k, w) :: rest, a, v => if k = a then (k, v) :: rest else (k, w) :: set rest a v

/-- The keys of the dict in iteration order (Python `for k in d`). -/
def keys (d : Dict α β) : List α := d.map Prod.fst

end Dict

/-! ## Class `MAB` (simple sample-average bandit)

The value type is a parameter so that `UCB1`, which inherits the data shape
and the read accessors but stores reward-plus-bonus values in `ℝ`, can reuse
the same definitions. -/

/-- State of the Python class `MAB` (fields `total_rewards`, `total_count`,
`average_reward`), with arm type `α` and numeric value type `β`. -/
structure MAB (α β : Type) where
  total_rewards : Dict α β
  total_count : Dict α ℕ
  average_reward : Dict α β

namespace MAB

variable {α : Type} [DecidableEq α] {β : Type} [DivisionRing β]

/-- `MAB.__init__`: the three dicts start empty. -/
def init : MAB α β := ⟨[], [], []⟩

/-- `MAB.update_reward(arm, reward)`. -/
def update_reward (s : MAB α β) (arm : α) (reward : β) : MAB α β :=
  let s :=
    if (Dict.get? s.total_rewards arm).isSome then s
    else { s with
            total_rewards := Dict.set s.total_rewards arm 0,
            total_count := Dict.set s.total_count arm 0 }
  let cnt := Dict.getD s.total_count arm 0 + 1
  let tot := Dict.getD s.total_rewards arm 0 + reward
  { total_rewards := Dict.set s.total_rewards arm tot,
    total_count := Dict.set s.total_count arm cnt,
    average_reward := Dict.set s.average_reward arm (tot / (cnt : β)) }

/-- `MAB.get_reward(arm)`: the stored average, or 0 for an unseen arm. -/
def get_reward (s : MAB α β) (arm : α) : β :=
  match Dict.get? s.average_reward arm with
  | none => 0
  | some v => v

/-- `MAB.get_arm_count(arm)`: the stored count, or 0 for an unseen arm. -/
def get_arm_count (s : MAB α β) (arm : α) : ℕ :=
  match Dict.get? s.total_count arm with
  | none => 0
  | some n => n

/-- Python `max(items, key=itemgetter(1))`: the first entry with maximal
value (a later entry replaces the running best only when strictly larger). -/
def dictMax {γ : Type} [LinearOrder γ] : List (α × γ) → Option (α × γ)
  | [] => none
  | x :: rest => some (rest.foldl (fun best p => if best.2 < p.2 then p else best) x)

/-- `MAB.get_best_arm()`. -/
def get_best_arm {γ : Type} [LinearOrder γ] (s : MAB α γ) : Option (α × γ) :=
  if s.average_reward = [] then none
  else dictMax s.average_reward

/-- Run a sequence of `update_reward` calls from a given state. -/
def runFrom (s : MAB α β) (us : List (α × β)) : MAB α β :=
  us.foldl (fun t u => t.update_reward u.1 u.2) s

/-- Run a sequence of `update_reward` calls on a fresh instance. -/
def run (us : List (α × β)) : MAB α β := runFrom init us

/-- The rewards passed for `arm` in the update sequence `us`, in order. -/
def armRewards (arm : α) (us : List (α × β)) : List β :=
  (us.filter (fun p => decide (p.1 = arm))).map Prod.snd

/-- The reachable-state invariant of `MAB`: every dict entry is determined by
the per-arm reward history. -/
def Inv (us : List (α × β)) (s : MAB α β) : Prop :=
  ∀ a : α,
    (armRewards a us = [] →
      Dict.get? s.total_count a = none ∧
      Dict.get? s.total_rewards a = none ∧
      Dict.get? s.average_reward a = none) ∧
    (armRewards a us ≠ [] →
      Dict.get? s.total_count a = some (armRewards a us).length ∧
      Dict.get? s.total_rewards a = some (armRewards a us).sum ∧
      Dict.get? s.average_reward a
        = some ((armRewards a us).sum / (((armRewards a us).length : ℕ) : β)))

end MAB

/-! ## Class `UCB1` (Upper Confidence Bound)

`UCB1` subclasses `MAB` in the source: it inherits the three dicts and the
read accessors `get_reward` / `get_arm_count` / `get_best_arm`, adds the
constructor parameter `beta` and the fields `overall_total_count` and `ucb`,
and overrides `update_reward`.  Because the exploration bonus uses
`math.sqrt` / `math.log`, its numeric values live in `ℝ`. -/

/-- State of the Python class `UCB1`: the inherited `MAB` dicts (over `ℝ`)
plus `beta`, `overall_total_count` and `ucb` (the bonus computed on the most
recent update). -/
structure UCB1 (α : Type) where
  mab : MAB α ℝ
  beta : ℝ
  overall_total_count : ℕ
  ucb : ℝ

namespace UCB1

variable {α : Type} [DecidableEq α]

/-- `UCB1.__init__(beta)`: empty dicts, `overall_total_count = 0`, `ucb = 0`. -/
noncomputable def init (beta : ℝ) : UCB1 α := ⟨MAB.init, beta, 0, 0⟩

/-- `UCB1.update_reward(arm, reward)`: increments the arm count and the
overall count, computes the bonus from the incremented count, and folds
`reward + bonus` into the running totals. -/
noncomputable def update_reward (s : UCB1 α) (arm : α) (reward : ℝ) : UCB1 α :=
  let m :=
    if (Dict.get? s.mab.total_rewards arm).isSome then s.mab
    else { s.mab with
            total_rewards := Dict.set s.mab.total_rewards arm 0,
            total_count := Dict.set s.mab.total_count arm 0 }
  let cnt := Dict.getD m.total_count arm 0 + 1
  let ucb := Real.sqrt (2 * s.beta * Real.log (cnt : ℝ) / (cnt : ℝ))
  let ucb_reward := reward + ucb
  let tot := Dict.getD m.total_rewards arm 0 + ucb_reward
  { mab := { total_rewards := Dict.set m.total_rewards arm tot,
             total_count := Dict.set m.total_count arm cnt,
             average_reward := Dict.set m.average_reward arm (tot / (cnt : ℝ)) },
    beta := s.beta,
    overall_total_count := s.overall_total_count + 1,
    ucb := ucb }

/-- Inherited `MAB.get_reward`. -/
noncomputable def get_reward (s : UCB1 α) (arm : α) : ℝ := s.mab.get_reward arm

/-- Inherited `MAB.get_arm_count`. -/
def get_arm_count (s : UCB1 α) (arm : α) : ℕ := s.mab.get_arm_count arm

/-- Inherited `MAB.get_best_arm`. -/
noncomputable def get_best_arm (s : UCB1 α) : Option (α × ℝ) := s.mab.get_best_arm

/-- `UCB1.get_last_ucb()`. -/
def get_last_ucb (s : UCB1 α) : ℝ := s.ucb

/-- Run a sequence of `update_reward` calls from a given state. -/
noncomputable def runFrom (s : UCB1 α) (us : List (α × ℝ)) : UCB1 α :=
  us.foldl (fun t u => t.update_reward u.1 u.2) s

/-- Run a sequence of `update_reward` calls on a fresh instance. -/
noncomputable def run (beta : ℝ) (us : List (α × ℝ)) : UCB1 α :=
  runFrom (init beta) us

end UCB1

/-! ## Class `TS` (Thompson Sampling)

Rewards and Beta-distribution parameters are modelled in `ℚ`; the
`random.betavariate` calls in `get_best_arm` are modelled by an oracle
`draw : α → ℚ` giving the sample drawn for each arm on this call. -/

/-- State of the Python class `TS` (fields `total_count`, `alpha`, `beta`,
`last_drawn`). -/
structure TS (α : Type) where
  total_count : Dict α ℕ
  alpha : Dict α ℚ
  beta : Dict α ℚ
  last_drawn : Dict α ℚ

namespace TS

variable {α : Type} [DecidableEq α]

/-- `TS.__init__`: all four dicts start empty. -/
def init : TS α := ⟨[], [], [], []⟩

/-- `TS.update_reward(arm, reward)`: seeds `alpha = beta = 1` for a new arm,
then adds `reward` to alpha, `1 - reward` to beta and 1 to the count. -/
def update_reward (s : TS α) (arm : α) (reward : ℚ) : TS α :=
  let s :=
    if (Dict.get? s.total_count arm).isSome then s
    else { s with
            alpha := Dict.set s.alpha arm 1,
            beta := Dict.set s.beta arm 1,
            total_count := Dict.set s.total_count arm 0,
            last_drawn := Dict.set s.last_drawn arm 0 }
  { s with
      total_count := Dict.set s.total_count arm (Dict.getD s.total_count arm 0 + 1),
      alpha := Dict.set s.alpha arm (Dict.getD s.alpha arm 0 + reward),
      beta := Dict.set s.beta arm (Dict.getD s.beta arm 0 + (1 - reward)) }

/-- `TS.get_reward(arm)`: `(alpha-1) / (alpha-1+beta-1)`, or 0 for an arm
that has never been updated. -/
def get_reward (s : TS α) (arm : α) : ℚ :=
  match Dict.get? s.total_count arm with
  | none => 0
  | some _ =>
      (Dict.getD s.alpha arm 0 - 1)
        / (Dict.getD s.alpha arm 0 - 1 + Dict.getD s.beta arm 0 - 1)

/-- `TS.get_arm_count(arm)`. -/
def get_arm_count (s : TS α) (arm : α) : ℕ :=
  match Dict.get? s.total_count arm with
  | none => 0
  | some n => n

/-- The loop body of `TS.get_best_arm`: for each arm in traversal order,
store the drawn sample in `last_drawn`, then replace the running best
whenever the sample is `≥` its value. -/
def select_loop (draw : α → ℚ) :
    List α → Dict α ℚ → Option α × ℚ → Dict α ℚ × (Option α × ℚ)
  | [], ld, best => (ld, best)
  | arm :: rest, ld, best =>
      select_loop draw rest (Dict.set ld arm (draw arm))
        (if best.2 ≤ draw arm then (some arm, draw arm) else best)

/-- `TS.get_best_arm()`: draws a sample for every known arm (recording it in
`last_drawn`), starting the running best at `(None, 0.0)`; returns the
updated state together with the returned pair. -/
def get_best_arm (s : TS α) (draw : α → ℚ) : TS α × Option (α × ℚ) :=
  let r := select_loop draw (Dict.keys s.total_count) s.last_drawn (none, 0)
  ({ s with last_drawn := r.1 },
    match r.2.1 with
    | none => none
    | some a => some (a, r.2.2))

/-- `TS.get_last_drawn_value(arm)`. -/
def get_last_drawn_value (s : TS α) (arm : α) : ℚ :=
  match Dict.get? s.last_drawn arm with
  | none => 0
  | some v => v

/-- Run a sequence of `update_reward` calls from a given state. -/
def runFrom (s : TS α) (us : List (α × ℚ)) : TS α :=
  us.foldl (fun t u => t.update_reward u.1 u.2) s

/-- Run a sequence of `update_reward` calls on a fresh instance. -/
def run (us : List (α × ℚ)) : TS α := runFrom init us

/-- The reachable-state invariant of `TS`: the four dicts share their key
set, every updated arm has a positive count, and `alpha + beta = count + 2`
(equivalently `(alpha-1) + (beta-1) = count`) regardless of the rewards. -/
def Inv (s : TS α) : Prop :=
  ∀ a : α,
    (Dict.get? s.total_count a = none →
      Dict.get? s.alpha a = none ∧ Dict.get? s.beta a = none) ∧
    (∀ n : ℕ, Dict.get? s.total_count a = some n →
      1 ≤ n ∧
      ∃ av bv : ℚ, Dict.get? s.alpha a = some av ∧ Dict.get? s.beta a = some bv ∧
        av + bv = (n : ℚ) + 2)

end TS

/-! ## Class `SoftMax` (Boltzmann exploration)

`SoftMax` subclasses `MAB`, inheriting `update_reward` and the read
accessors, and overrides `get_best_arm`; `get_prob_list` computes the
normalized Boltzmann weights in `ℝ` (`math.exp`).  The `random.choices`
call in `get_best_arm` is modelled by an oracle index `choice` into the arm
list (any weighted draw returns some such index). -/

/-- State of the Python class `SoftMax`: the inherited `MAB` dicts plus the
temperature `tau`. -/
structure SoftMax (α : Type) where
  mab : MAB α ℚ
  tau : ℚ

namespace SoftMax

variable {α : Type} [DecidableEq α]

/-- `SoftMax.__init__(tau)`. -/
def init (tau : ℚ) : SoftMax α := ⟨MAB.init, tau⟩

/-- Inherited `MAB.update_reward`. -/
def update_reward (s : SoftMax α) (arm : α) (reward : ℚ) : SoftMax α :=
  { s with mab := s.mab.update_reward arm reward }

/-- Inherited `MAB.get_reward`. -/
def get_reward (s : SoftMax α) (arm : α) : ℚ := s.mab.get_reward arm

/-- Inherited `MAB.get_arm_count`. -/
def get_arm_count (s : SoftMax α) (arm : α) : ℕ := s.mab.get_arm_count arm

/-- `SoftMax.get_best_arm()`: `(None, None)` when the Q-table is empty,
otherwise the weighted random choice (oracle `choice`) together with its
stored average. -/
def get_best_arm (s : SoftMax α) (choice : ℕ) : Option (α × ℚ) :=
  match s.mab.average_reward with
  | [] => none
  | x :: rest =>
      let arm_list := Dict.keys (x :: rest)
      let c := arm_list.getD (choice % arm_list.length) x.1
      some (c, Dict.getD (x :: rest) c 0)

/-- `SoftMax.get_prob_list()`: the Boltzmann weight `exp(estimate / tau)`
of every known arm, normalized by the total weight; empty when no arm is
known. -/
noncomputable def get_prob_list (s : SoftMax α) : Dict α ℝ :=
  if s.mab.average_reward = [] then []
  else
    let arm_prob : Dict α ℝ :=
      s.mab.average_reward.map
        (fun p => (p.1, Real.exp ((p.2 : ℝ) / (s.tau : ℝ))))
    let weigth_sum := (arm_prob.map Prod.snd).sum
    arm_prob.map (fun p => (p.1, p.2 / weigth_sum))

/-- Run a sequence of `update_reward` calls from a given state. -/
def runFrom (s : SoftMax α) (us : List (α × ℚ)) : SoftMax α :=
  us.foldl (fun t u => t.update_reward u.1 u.2) s

/-- Run a sequence of `update_reward` calls on a fresh instance. -/
def run (tau : ℚ) (us : List (α × ℚ)) : SoftMax α := runFrom (init tau) us

end SoftMax

/-! ## Class `CMAB` (contextual router over per-context `UCB1` instances) -/

/-- State of the Python class `CMAB`: one lazily-created `UCB1` instance per
context key. -/
structure CMAB (γ α : Type) where
  mab : Dict γ (UCB1 α)

namespace CMAB

variable {γ : Type} [DecidableEq γ] {α : Type} [DecidableEq α]

/-- `CMAB.__init__`. -/
def init : CMAB γ α := ⟨[]⟩

/-- `CMAB.update_reward(arm, reward, context)`: creates a fresh `UCB1()`
(default `beta = 1.0`) for an unseen context, then delegates the update to
that context's instance. -/
noncomputable def update_reward (s : CMAB γ α) (arm : α) (reward : ℝ)
    (context : γ) : CMAB γ α :=
  let m :=
    if (Dict.get? s.mab context).isSome then s.mab
    else Dict.set s.mab context (UCB1.init 1)
  ⟨Dict.set m context ((Dict.getD m context (UCB1.init 1)).update_reward arm reward)⟩

/-- `CMAB.get_reward(arm, context)`: 0 for an unknown context, otherwise
delegates. -/
noncomputable def get_reward (s : CMAB γ α) (arm : α) (context : γ) : ℝ :=
  match Dict.get? s.mab context with
  | none => 0
  | some m => m.get_reward arm

/-- `CMAB.get_best_arm(context)`: `(None, None)` for an unknown context,
otherwise delegates. -/
noncomputable def get_best_arm (s : CMAB γ α) (context : γ) : Option (α × ℝ) :=
  match Dict.get? s.mab context with
  | none => none
  | some m => m.get_best_arm

end CMAB

/-! ## Theorems -/

namespace Dict

variable {α β : Type} [DecidableEq α]

theorem get?_set_self (d : Dict α β) (a : α) (v : β) :
    Dict.get? (Dict.set d a v) a = some v := by
  induction d with
  | nil => simp [set, get?]
  | cons p rest ih =>
    obtain ⟨k, w⟩ := p
    by_cases h : k = a
    · simp [set, get?, h]
    · simp [set, get?, h, ih]

theorem get?_set_ne (d : Dict α β) (a b : α) (v : β) (hne : a ≠ b) :
    Dict.get? (Dict.set d a v) b = Dict.get? d b := by
  induction d with
  | nil => simp [set, get?, hne]
  | cons p rest ih =>
    obtain ⟨k, w⟩ := p
    by_cases h : k = a
    · subst h
      simp [set, get?, hne]
    · by_cases h2 : k = b <;> simp [set, get?, h, h2, ih, Ne.symm hne]

theorem keys_set (d : Dict α β) (a : α) (v : β) :
    Dict.keys (Dict.set d a v) =
      if (Dict.get? d a).isSome then Dict.keys d else Dict.keys d ++ [a] := by
  induction d with
  | nil => simp [set, keys, get?]
  | cons p rest ih =>
    obtain ⟨k, w⟩ := p
    by_cases h : k = a
    · simp [set, keys, get?, h]
    · simp only [set, keys, get?, h, if_false, List.map_cons]
      by_cases h2 : (Dict.get? rest a).isSome <;> simp_all [keys]

theorem get?_eq_none_of_not_mem_keys (d : Dict α β) (a : α) (h : a ∉ Dict.keys d) :
    Dict.get? d a = none := by
  induction d with
  | nil => rfl
  | cons p rest ih =>
    obtain ⟨k, w⟩ := p
    simp only [keys, List.map_cons, List.mem_cons] at h
    push_neg at h
    simp [get?, Ne.symm h.1, ih (by simpa [keys] using h.2)]

theorem isSome_get?_iff_mem_keys (d : Dict α β) (a : α) :
    (Dict.get? d a).isSome ↔ a ∈ Dict.keys d := by
  induction d with
  | nil => simp [get?, keys]
  | cons p rest ih =>
    obtain ⟨k, w⟩ := p
    by_cases h : k = a
    · simp [get?, keys, h]
    · simp [get?, keys, h, ih, Ne.symm h]

theorem nodup_keys_set (d : Dict α β) (a : α) (v : β) (h : (Dict.keys d).Nodup) :
    (Dict.keys (Dict.set d a v)).Nodup := by
  rw [keys_set]
  by_cases hmem : (Dict.get? d a).isSome
  · simpa [hmem]
  · have ha : a ∉ Dict.keys d := fun hc => hmem ((isSome_get?_iff_mem_keys d a).mpr hc)
    simp [hmem, List.nodup_append, ha, h]

/-- With no duplicate keys, a pair occurring anywhere in the list is what
lookup finds. -/
theorem get?_eq_of_append (l₁ l₂ : List (α × β)) (a : α) (v : β)
    (hnd : (Dict.keys (l₁ ++ (a, v) :: l₂)).Nodup) :
    Dict.get? (l₁ ++ (a, v) :: l₂) a = some v := by
  induction l₁ with
  | nil => simp [get?]
  | cons p rest ih =>
    obtain ⟨k, w⟩ := p
    simp only [keys, List.cons_append, List.map_cons, List.nodup_cons] at hnd
    have hka : k ≠ a := by
      intro hk
      exact hnd.1 (by simp [hk])
    simp only [List.cons_append, get?, hka, if_false]
    exact ih (by simpa [keys] using hnd.2)


end Dict

namespace MAB

variable {α : Type} [DecidableEq α] {β : Type} [DivisionRing β]

omit [DivisionRing β] in
theorem armRewards_append_single (a arm : α) (r : β) (us : List (α × β)) :
    armRewards a (us ++ [(arm, r)])
      = armRewards a us ++ if arm = a then [r] else [] := by
  by_cases h : arm = a <;> simp [armRewards, List.filter_append, h]

/-- Lookup in `total_count` after one `update_reward`. -/
theorem update_get?_count (s : MAB α β) (arm a : α) (r : β) :
    Dict.get? (s.update_reward arm r).total_count a =
      if arm = a then
        some (if (Dict.get? s.total_rewards arm).isSome
              then Dict.getD s.total_count arm 0 + 1 else 1)
      else Dict.get? s.total_count a := by
  by_cases h : arm = a
  · subst h
    by_cases hnew : (Dict.get? s.total_rewards arm).isSome <;>
      simp [update_reward, hnew, Dict.get?_set_self, Dict.getD]
  · by_cases hnew : (Dict.get? s.total_rewards arm).isSome <;>
      simp [update_reward, hnew, h, Dict.get?_set_self, Dict.get?_set_ne, Dict.getD]

/-- Lookup in `total_rewards` after one `update_reward`. -/
theorem update_get?_rewards (s : MAB α β) (arm a : α) (r : β) :
    Dict.get? (s.update_reward arm r).total_rewards a =
      if arm = a then
        some (if (Dict.get? s.total_rewards arm).isSome
              then Dict.getD s.total_rewards arm 0 + r else r)
      else Dict.get? s.total_rewards a := by
  by_cases h : arm = a
  · subst h
    by_cases hnew : (Dict.get? s.total_rewards arm).isSome <;>
      simp [update_reward, hnew, Dict.get?_set_self, Dict.getD]
  · by_cases hnew : (Dict.get? s.total_rewards arm).isSome <;>
      simp [update_reward, hnew, h, Dict.get?_set_self, Dict.get?_set_ne, Dict.getD]

/-- Lookup in `average_reward` after one `update_reward`. -/
theorem update_get?_average (s : MAB α β) (arm a : α) (r : β) :
    Dict.get? (s.update_reward arm r).average_reward a =
      if arm = a then
        some (if (Dict.get? s.total_rewards arm).isSome
              then (Dict.getD s.total_rewards arm 0 + r)
                    / ((Dict.getD s.total_count arm 0 + 1 : ℕ) : β)
              else r / ((1 : ℕ) : β))
      else Dict.get? s.average_reward a := by
  by_cases h : arm = a
  · subst h
    by_cases hnew : (Dict.get? s.total_rewards arm).isSome <;>
      simp [update_reward, hnew, Dict.get?_set_self, Dict.getD]
  · by_cases hnew : (Dict.get? s.total_rewards arm).isSome <;>
      simp [update_reward, hnew, h, Dict.get?_set_self, Dict.get?_set_ne, Dict.getD]

/-- The reachable-state invariant of `MAB`: every dict entry is determined by
the per-arm reward history. -/

theorem inv_init : Inv ([] : List (α × β)) init := by
  intro a
  simp [armRewards, init, Dict.get?]

theorem inv_step {us : List (α × β)} {s : MAB α β} (hInv : Inv us s)
    (arm : α) (r : β) : Inv (us ++ [(arm, r)]) (s.update_reward arm r) := by
  intro a
  obtain ⟨he, hn⟩ := hInv a
  obtain ⟨heA, hnA⟩ := hInv arm
  by_cases h : arm = a
  · subst h
    rcases eq_or_ne (armRewards arm us) [] with hseen | hseen
    · have hnone : ¬(Dict.get? s.total_rewards arm).isSome := by
        rw [(heA hseen).2.1]
        simp
      constructor
      · intro hcontra
        simp [armRewards_append_single, hseen] at hcontra
      · intro _
        simp [update_get?_count, update_get?_rewards, update_get?_average,
          armRewards_append_single, hseen, hnone]
    · have hsome : (Dict.get? s.total_rewards arm).isSome := by
        rw [(hnA hseen).2.1]
        simp
      have hgc : Dict.getD s.total_count arm 0 = (armRewards arm us).length := by
        simp [Dict.getD, (hnA hseen).1]
      have hgr : Dict.getD s.total_rewards arm 0 = (armRewards arm us).sum := by
        simp [Dict.getD, (hnA hseen).2.1]
      constructor
      · intro hcontra
        simp [armRewards_append_single] at hcontra
      · intro _
        simp [update_get?_count, update_get?_rewards, update_get?_average,
          armRewards_append_single, hseen, hsome, hgc, hgr]
  · constructor
    · intro hempty
      rw [armRewards_append_single, if_neg h, List.append_nil] at hempty
      refine ⟨?_, ?_, ?_⟩ <;>
        simp [update_get?_count, update_get?_rewards, update_get?_average, h,
          (he hempty).1, (he hempty).2.1, (he hempty).2.2]
    · intro hne
      rw [armRewards_append_single, if_neg h, List.append_nil] at hne
      refine ⟨?_, ?_, ?_⟩ <;>
        simp [update_get?_count, update_get?_rewards, update_get?_average, h,
          armRewards_append_single, (hn hne).1, (hn hne).2.1, (hn hne).2.2]

omit [DecidableEq α] [DivisionRing β] in
/-- Python `max` keeps the first maximal element: the fold result sits in the
list with strictly smaller values before it and no larger value after it
(unless it is the seed and nothing beats the seed). -/
theorem foldl_pickMax_spec {γ : Type} [LinearOrder γ] (rest : List (α × γ))
    (x r : α × γ)
    (hr : rest.foldl (fun best p => if best.2 < p.2 then p else best) x = r) :
    (r = x ∧ ∀ q ∈ rest, q.2 ≤ x.2) ∨
    (∃ l₁ l₂, rest = l₁ ++ r :: l₂ ∧ x.2 < r.2 ∧
      (∀ q ∈ l₁, q.2 < r.2) ∧ (∀ q ∈ l₂, q.2 ≤ r.2)) := by
  induction rest generalizing x with
  | nil =>
    left
    exact ⟨hr.symm, by simp⟩
  | cons p rest ih =>
    rw [List.foldl_cons] at hr
    by_cases hp : x.2 < p.2
    · rw [if_pos hp] at hr
      rcases ih p hr with ⟨h1, h2⟩ | ⟨l₁, l₂, heq, hless, hbefore, hafter⟩
      · right
        exact ⟨[], rest, by simp [h1], h1 ▸ hp, by simp, fun q hq => h1 ▸ h2 q hq⟩
      · right
        refine ⟨p :: l₁, l₂, by simp [heq], lt_trans hp hless, ?_, hafter⟩
        intro q hq
        rcases List.mem_cons.mp hq with hq | hq
        · exact hq ▸ hless
        · exact hbefore q hq
    · rw [if_neg hp] at hr
      rcases ih x hr with ⟨h1, h2⟩ | ⟨l₁, l₂, heq, hless, hbefore, hafter⟩
      · left
        refine ⟨h1, ?_⟩
        intro q hq
        rcases List.mem_cons.mp hq with hq | hq
        · exact hq ▸ le_of_not_lt hp
        · exact h2 q hq
      · right
        refine ⟨p :: l₁, l₂, by simp [heq], hless, ?_, hafter⟩
        intro q hq
        rcases List.mem_cons.mp hq with hq | hq
        · exact hq ▸ lt_of_le_of_lt (le_of_not_lt hp) hless
        · exact hbefore q hq

omit [DecidableEq α] [DivisionRing β] in
/-- `dictMax` of a list returns an entry that sits in the list with all
strictly smaller values before it and no strictly larger value after it. -/
theorem dictMax_spec {γ : Type} [LinearOrder γ] (l : List (α × γ)) (r : α × γ)
    (hr : dictMax l = some r) :
    ∃ l₁ l₂, l = l₁ ++ r :: l₂ ∧ (∀ q ∈ l₁, q.2 < r.2) ∧ (∀ q ∈ l₂, q.2 ≤ r.2) := by
  match l with
  | [] => simp [dictMax] at hr
  | x :: rest =>
    simp only [dictMax, Option.some.injEq] at hr
    rcases foldl_pickMax_spec rest x r hr with ⟨h1, h2⟩ | ⟨l₁, l₂, heq, hless, hbefore, hafter⟩
    · exact ⟨[], rest, by simp [h1], by simp, by simpa [h1] using h2⟩
    · refine ⟨x :: l₁, l₂, by simp [heq], ?_, hafter⟩
      intro q hq
      rcases List.mem_cons.mp hq with hq | hq
      · exact hq ▸ hless
      · exact hbefore q hq

theorem inv_run (us : List (α × β)) : Inv us (run us) := by
  induction us using List.reverseRecOn with
  | nil => exact inv_init
  | append_singleton us u ih =>
    have hrun : run (us ++ [u]) = (run us).update_reward u.1 u.2 := by
      simp [run, runFrom, List.foldl_append]
    rw [hrun]
    have := inv_step ih u.1 u.2
    simpa using this

theorem nodup_keys_update (s : MAB α β) (arm : α) (r : β)
    (h : (Dict.keys s.average_reward).Nodup) :
    (Dict.keys (s.update_reward arm r).average_reward).Nodup := by
  by_cases hnew : (Dict.get? s.total_rewards arm).isSome <;>
    simp [update_reward, hnew, Dict.nodup_keys_set, h]

theorem nodup_keys_run (us : List (α × β)) :
    (Dict.keys (run us).average_reward).Nodup := by
  induction us using List.reverseRecOn with
  | nil => simp [run, runFrom, init, Dict.keys]
  | append_singleton us u ih =>
    have hrun : run (us ++ [u]) = (run us).update_reward u.1 u.2 := by
      simp [run, runFrom, List.foldl_append]
    rw [hrun]
    exact nodup_keys_update _ _ _ ih

/-- After a nonempty update sequence the `average_reward` dict is nonempty. -/
theorem average_reward_run_eq_nil_iff (us : List (α × β)) :
    (run us).average_reward = [] ↔ us = [] := by
  constructor
  · intro h
    by_contra hne
    match us, hne with
    | u :: rest, _ =>
      obtain ⟨_, hn⟩ := inv_run (u :: rest) u.1
      have harm : armRewards u.1 (u :: rest) ≠ [] := by
        simp [armRewards, List.filter_cons]
      have := (hn harm).2.2
      rw [h] at this
      simp [Dict.get?] at this
  · intro h
    subst h
    rfl


end MAB

/-- C1: for `MAB` (SampleAverageBandit), after any update sequence,
`get_arm_count arm` is the number of updates for that arm, and when that
number is positive, `get_reward arm` is the sum of the rewards passed for
that arm divided by it. -/
theorem mab_mean_consistency {α : Type} [DecidableEq α]
    (us : List (α × ℚ)) (arm : α) :
    (MAB.run us).get_arm_count arm = (MAB.armRewards arm us).length ∧
    (MAB.armRewards arm us ≠ [] →
      (MAB.run us).get_reward arm
        = (MAB.armRewards arm us).sum / ((MAB.armRewards arm us).length : ℚ)) := by
  obtain ⟨he, hn⟩ := MAB.inv_run us arm
  constructor
  · rcases eq_or_ne (MAB.armRewards arm us) [] with h | h
    · simp [MAB.get_arm_count, (he h).1, h]
    · simp [MAB.get_arm_count, (hn h).1]
  · intro h
    simp [MAB.get_reward, (hn h).2.2]

/-- Witness for C1: the spec scenario
update("A",1.0), update("A",0.0), update("B",0.5). -/
theorem mab_mean_consistency_witness :
    MAB.armRewards "A" [("A", (1 : ℚ)), ("A", 0), ("B", 1/2)] ≠ [] ∧
    (MAB.run [("A", (1 : ℚ)), ("A", 0), ("B", 1/2)]).get_reward "A"
      = (MAB.armRewards "A" [("A", (1 : ℚ)), ("A", 0), ("B", 1/2)]).sum
        / ((MAB.armRewards "A" [("A", (1 : ℚ)), ("A", 0), ("B", 1/2)]).length : ℚ) ∧
    (MAB.run [("A", (1 : ℚ)), ("A", 0), ("B", 1/2)]).get_reward "A" = 1/2 ∧
    (MAB.run [("A", (1 : ℚ)), ("A", 0), ("B", 1/2)]).get_reward "B" = 1/2 ∧
    (MAB.run [("A", (1 : ℚ)), ("A", 0), ("B", 1/2)]).get_arm_count "A" = 2 :=
  ⟨by simp [MAB.armRewards],
   (mab_mean_consistency [("A", (1 : ℚ)), ("A", 0), ("B", 1/2)] "A").2
     (by simp [MAB.armRewards]),
   by simp [MAB.run, MAB.runFrom, MAB.update_reward, MAB.get_reward,
        MAB.get_arm_count, Dict.get?, Dict.set, Dict.getD],
   by simp [MAB.run, MAB.runFrom, MAB.update_reward, MAB.get_reward,
        MAB.get_arm_count, Dict.get?, Dict.set, Dict.getD],
   by simp [MAB.run, MAB.runFrom, MAB.update_reward, MAB.get_reward,
        MAB.get_arm_count, Dict.get?, Dict.set, Dict.getD]⟩

/-- C9: for `MAB` (SampleAverageBandit), `get_best_arm` returns `none`
exactly when no arm has ever been updated; otherwise it returns a pair
`(a, v)` that is a stored entry (so `v` is `a`'s stored estimate), every
entry strictly before it has a smaller estimate (ties go to the
first-encountered arm in traversal order), and no entry after it has a
larger estimate. -/
theorem mab_get_best_arm_spec {α : Type} [DecidableEq α] (us : List (α × ℚ)) :
    ((MAB.run us).get_best_arm = none ↔ us = []) ∧
    (∀ a v, (MAB.run us).get_best_arm = some (a, v) →
      Dict.get? (MAB.run us).average_reward a = some v ∧
      ∃ l₁ l₂, (MAB.run us).average_reward = l₁ ++ (a, v) :: l₂ ∧
        (∀ q ∈ l₁, q.2 < v) ∧ (∀ q ∈ l₂, q.2 ≤ v)) := by
  constructor
  · constructor
    · intro hnone
      by_contra hus
      have h : (MAB.run us).average_reward ≠ [] :=
        fun hc => hus ((MAB.average_reward_run_eq_nil_iff us).mp hc)
      simp only [MAB.get_best_arm, if_neg h] at hnone
      obtain ⟨x, rest, hl⟩ := List.exists_cons_of_ne_nil h
      rw [hl] at hnone
      simp [MAB.dictMax] at hnone
    · intro hus
      subst hus
      rfl
  · intro a v hbest
    rcases eq_or_ne (MAB.run us).average_reward [] with h | h
    · simp [MAB.get_best_arm, h] at hbest
    · simp only [MAB.get_best_arm, if_neg h] at hbest
      obtain ⟨l₁, l₂, heq, hbefore, hafter⟩ := MAB.dictMax_spec _ _ hbest
      refine ⟨?_, l₁, l₂, heq, hbefore, hafter⟩
      have hnd := MAB.nodup_keys_run us
      rw [heq] at hnd ⊢
      exact Dict.get?_eq_of_append l₁ l₂ a v hnd

/-- Witness for C9: after update("A",1), update("B",0), update("C",1) the
best arm is the first-encountered maximal arm "A" with estimate 1. -/
theorem mab_get_best_arm_spec_witness :
    (MAB.run [("A", (1 : ℚ)), ("B", 0), ("C", 1)]).get_best_arm = some ("A", 1) ∧
    Dict.get? (MAB.run [("A", (1 : ℚ)), ("B", 0), ("C", 1)]).average_reward "A"
      = some 1 ∧
    ∃ l₁ l₂,
      (MAB.run [("A", (1 : ℚ)), ("B", 0), ("C", 1)]).average_reward
          = l₁ ++ ("A", (1 : ℚ)) :: l₂ ∧
        (∀ q ∈ l₁, q.2 < 1) ∧ (∀ q ∈ l₂, q.2 ≤ 1) := by
  have hbest : (MAB.run [("A", (1 : ℚ)), ("B", 0), ("C", 1)]).get_best_arm
      = some ("A", 1) := by
    simp [MAB.run, MAB.runFrom, MAB.update_reward, MAB.get_best_arm, MAB.dictMax,
      Dict.get?, Dict.set, Dict.getD]
    norm_num
  have := (mab_get_best_arm_spec [("A", (1 : ℚ)), ("B", 0), ("C", 1)]).2 "A" 1 hbest
  exact ⟨hbest, this.1, this.2⟩

namespace UCB1

variable {α : Type} [DecidableEq α]

/-- Lookup in `total_count` after one `UCB1.update_reward`. -/
theorem update_get?_count_ucb1 (s : UCB1 α) (arm a : α) (r : ℝ) :
    Dict.get? (s.update_reward arm r).mab.total_count a =
      if arm = a then
        some (if (Dict.get? s.mab.total_rewards arm).isSome
              then Dict.getD s.mab.total_count arm 0 + 1 else 1)
      else Dict.get? s.mab.total_count a := by
  by_cases h : arm = a
  · subst h
    by_cases hnew : (Dict.get? s.mab.total_rewards arm).isSome <;>
      simp [update_reward, hnew, Dict.get?_set_self, Dict.getD]
  · by_cases hnew : (Dict.get? s.mab.total_rewards arm).isSome <;>
      simp [update_reward, hnew, h, Dict.get?_set_self, Dict.get?_set_ne, Dict.getD]

theorem update_overall_total_count (s : UCB1 α) (arm : α) (r : ℝ) :
    (s.update_reward arm r).overall_total_count = s.overall_total_count + 1 := rfl

theorem runFrom_overall_total_count (us : List (α × ℝ)) :
    ∀ s : UCB1 α, (runFrom s us).overall_total_count
      = s.overall_total_count + us.length := by
  induction us with
  | nil => intro s; simp [runFrom]
  | cons u rest ih =>
    intro s
    have : runFrom s (u :: rest) = runFrom (s.update_reward u.1 u.2) rest := rfl
    rw [this, ih, update_overall_total_count]
    simp only [List.length_cons]
    omega

end UCB1

/-- C6: for `UCB1` (UpperConfidenceBoundBandit), starting from a fresh
instance, after any sequence of `N` calls to `update_reward` (over any arms,
with any rewards) the field `overall_total_count` equals `N`. -/
theorem ucb1_overall_total_count {α : Type} [DecidableEq α]
    (beta : ℝ) (us : List (α × ℝ)) :
    (UCB1.run beta us).overall_total_count = us.length := by
  rw [UCB1.run, UCB1.runFrom_overall_total_count us (UCB1.init beta)]
  simp [UCB1.init]

/-- C3: for `UCB1` (UpperConfidenceBoundBandit), on every `update_reward`,
with `n` the arm's count after incrementing, the stored bonus equals
`sqrt(2·beta·ln(n)/n)`, the cumulative reward receives `reward + bonus`
(not the raw reward), the stored estimate is `cumulative / n`, and on an
arm's first update (`n = 1`) the bonus is exactly 0. -/
theorem ucb1_update_reward_spec {α : Type} [DecidableEq α]
    (s : UCB1 α) (arm : α) (reward : ℝ) (n : ℕ)
    (hn : Dict.get? (s.update_reward arm reward).mab.total_count arm = some n) :
    (s.update_reward arm reward).ucb
        = Real.sqrt (2 * s.beta * Real.log (n : ℝ) / (n : ℝ)) ∧
    Dict.get? (s.update_reward arm reward).mab.total_rewards arm
        = some (Dict.getD s.mab.total_rewards arm 0
            + (reward + (s.update_reward arm reward).ucb)) ∧
    Dict.get? (s.update_reward arm reward).mab.average_reward arm
        = some ((Dict.getD s.mab.total_rewards arm 0
            + (reward + (s.update_reward arm reward).ucb)) / (n : ℝ)) ∧
    (Dict.get? s.mab.total_rewards arm = none →
      n = 1 ∧ (s.update_reward arm reward).ucb = 0) := by
  by_cases hnew : (Dict.get? s.mab.total_rewards arm).isSome
  · rw [UCB1.update_get?_count_ucb1, if_pos rfl, if_pos hnew] at hn
    obtain rfl : Dict.getD s.mab.total_count arm 0 + 1 = n := Option.some.inj hn
    refine ⟨?_, ?_, ?_, ?_⟩
    · simp [UCB1.update_reward, hnew]
    · simp [UCB1.update_reward, hnew, Dict.get?_set_self]
    · simp [UCB1.update_reward, hnew, Dict.get?_set_self]
    · intro hc
      rw [hc] at hnew
      simp at hnew
  · rw [UCB1.update_get?_count_ucb1, if_pos rfl, if_neg hnew] at hn
    obtain rfl : 1 = n := Option.some.inj hn
    have hzero : Dict.get? s.mab.total_rewards arm = none :=
      Option.not_isSome_iff_eq_none.mp hnew
    refine ⟨?_, ?_, ?_, ?_⟩
    · simp [UCB1.update_reward, hnew, Dict.getD, Dict.get?_set_self]
    · simp [UCB1.update_reward, hnew, Dict.getD, Dict.get?_set_self, hzero]
    · simp [UCB1.update_reward, hnew, Dict.getD, Dict.get?_set_self, hzero]
    · intro _
      refine ⟨rfl, ?_⟩
      simp [UCB1.update_reward, hnew, Dict.getD, Dict.get?_set_self,
        Real.log_one, Real.sqrt_eq_zero']

/-- Witness for C3: the first update of arm "A" on a fresh `UCB1` instance
has count 1 and bonus 0. -/
theorem ucb1_update_reward_spec_witness :
    Dict.get? (((UCB1.init 1 : UCB1 String)).update_reward "A" 1).mab.total_count "A"
        = some 1 ∧
    Dict.get? ((UCB1.init 1 : UCB1 String)).mab.total_rewards "A" = none ∧
    (((UCB1.init 1 : UCB1 String)).update_reward "A" 1).ucb = 0 := by
  have h1 : Dict.get?
      (((UCB1.init 1 : UCB1 String)).update_reward "A" 1).mab.total_count "A"
      = some 1 := by
    simp [UCB1.update_reward, UCB1.init, MAB.init, Dict.get?, Dict.set, Dict.getD]
  have h2 : Dict.get? ((UCB1.init 1 : UCB1 String)).mab.total_rewards "A" = none :=
    rfl
  exact ⟨h1, h2,
    ((ucb1_update_reward_spec (UCB1.init 1) "A" 1 1 h1).2.2.2 h2).2⟩

namespace TS

variable {α : Type} [DecidableEq α]

/-- Lookup in `total_count` after one `TS.update_reward`. -/
theorem update_get?_count_ts (s : TS α) (arm a : α) (r : ℚ) :
    Dict.get? (s.update_reward arm r).total_count a =
      if arm = a then
        some (if (Dict.get? s.total_count arm).isSome
              then Dict.getD s.total_count arm 0 + 1 else 1)
      else Dict.get? s.total_count a := by
  by_cases h : arm = a
  · subst h
    by_cases hnew : (Dict.get? s.total_count arm).isSome <;>
      simp [update_reward, hnew, Dict.get?_set_self, Dict.getD]
  · by_cases hnew : (Dict.get? s.total_count arm).isSome <;>
      simp [update_reward, hnew, h, Dict.get?_set_self, Dict.get?_set_ne, Dict.getD]

/-- Lookup in `alpha` after one `TS.update_reward`. -/
theorem update_get?_alpha (s : TS α) (arm a : α) (r : ℚ) :
    Dict.get? (s.update_reward arm r).alpha a =
      if arm = a then
        some (if (Dict.get? s.total_count arm).isSome
              then Dict.getD s.alpha arm 0 + r else 1 + r)
      else Dict.get? s.alpha a := by
  by_cases h : arm = a
  · subst h
    by_cases hnew : (Dict.get? s.total_count arm).isSome <;>
      simp [update_reward, hnew, Dict.get?_set_self, Dict.getD]
  · by_cases hnew : (Dict.get? s.total_count arm).isSome <;>
      simp [update_reward, hnew, h, Dict.get?_set_self, Dict.get?_set_ne, Dict.getD]

/-- Lookup in `beta` after one `TS.update_reward`. -/
theorem update_get?_beta (s : TS α) (arm a : α) (r : ℚ) :
    Dict.get? (s.update_reward arm r).beta a =
      if arm = a then
        some (if (Dict.get? s.total_count arm).isSome
              then Dict.getD s.beta arm 0 + (1 - r) else 1 + (1 - r))
      else Dict.get? s.beta a := by
  by_cases h : arm = a
  · subst h
    by_cases hnew : (Dict.get? s.total_count arm).isSome <;>
      simp [update_reward, hnew, Dict.get?_set_self, Dict.getD]
  · by_cases hnew : (Dict.get? s.total_count arm).isSome <;>
      simp [update_reward, hnew, h, Dict.get?_set_self, Dict.get?_set_ne, Dict.getD]

theorem inv_init_ts : Inv (init : TS α) := by
  intro a
  constructor
  · intro _
    exact ⟨rfl, rfl⟩
  · intro n hn
    simp [init, Dict.get?] at hn

/-- One `update_reward` preserves the invariant — for an arbitrary rational
reward, not only rewards in {0,1}. -/
theorem inv_update {s : TS α} (h : Inv s) (arm : α) (r : ℚ) :
    Inv (s.update_reward arm r) := by
  intro a
  obtain ⟨he, hn⟩ := h a
  by_cases hx : arm = a
  · subst hx
    constructor
    · intro hc
      rw [update_get?_count_ts, if_pos rfl] at hc
      simp at hc
    · intro n hcn
      rw [update_get?_count_ts, if_pos rfl] at hcn
      by_cases hnew : (Dict.get? s.total_count arm).isSome
      · rw [if_pos hnew] at hcn
        obtain ⟨n0, hn0⟩ := Option.isSome_iff_exists.mp hnew
        obtain ⟨h1, av, bv, hav, hbv, hsum⟩ := hn n0 hn0
        have hgd : Dict.getD s.total_count arm 0 = n0 := by simp [Dict.getD, hn0]
        have hne : Dict.getD s.total_count arm 0 + 1 = n := Option.some.inj hcn
        refine ⟨by omega, av + r, bv + (1 - r), ?_, ?_, ?_⟩
        · rw [update_get?_alpha, if_pos rfl, if_pos hnew]
          simp [Dict.getD, hav]
        · rw [update_get?_beta, if_pos rfl, if_pos hnew]
          simp [Dict.getD, hbv]
        · have : n = n0 + 1 := by omega
          subst this
          push_cast
          linarith
      · rw [if_neg hnew] at hcn
        obtain rfl : 1 = n := Option.some.inj hcn
        refine ⟨le_refl 1, 1 + r, 1 + (1 - r), ?_, ?_, by push_cast; ring⟩
        · rw [update_get?_alpha, if_pos rfl, if_neg hnew]
        · rw [update_get?_beta, if_pos rfl, if_neg hnew]
  · constructor
    · intro hc
      rw [update_get?_count_ts, if_neg hx] at hc
      rw [update_get?_alpha, if_neg hx, update_get?_beta, if_neg hx]
      exact he hc
    · intro n hcn
      rw [update_get?_count_ts, if_neg hx] at hcn
      rw [update_get?_alpha, if_neg hx, update_get?_beta, if_neg hx]
      exact hn n hcn

theorem inv_runFrom_ts (us : List (α × ℚ)) :
    ∀ s : TS α, Inv s → Inv (runFrom s us) := by
  induction us with
  | nil => intro s h; exact h
  | cons u rest ih =>
    intro s h
    exact ih (s.update_reward u.1 u.2) (inv_update h u.1 u.2)

theorem inv_run_ts (us : List (α × ℚ)) : Inv (run us) :=
  inv_runFrom_ts us init inv_init_ts

end TS

/-- C4: for `TS` (ThompsonSamplingBandit), after any update sequence with
rewards in {0,1}, every updated arm's stored `alpha + beta` equals its
stored `count + 2`. -/
theorem ts_alpha_beta_count_identity {α : Type} [DecidableEq α]
    (us : List (α × ℚ)) (hrw : ∀ p ∈ us, p.2 = 0 ∨ p.2 = 1)
    (arm : α) (n : ℕ) (av bv : ℚ)
    (hc : Dict.get? (TS.run us).total_count arm = some n)
    (ha : Dict.get? (TS.run us).alpha arm = some av)
    (hb : Dict.get? (TS.run us).beta arm = some bv) :
    av + bv = (n : ℚ) + 2 := by
  obtain ⟨_, av', bv', hav, hbv, hsum⟩ := ((TS.inv_run_ts us) arm).2 n hc
  rw [ha] at hav
  rw [hb] at hbv
  rw [Option.some.inj hav, Option.some.inj hbv]
  exact hsum

/-- Witness for C4: update("A",1), update("A",1), update("A",0) gives
`alpha = 3`, `beta = 2`, `count = 3`, and `3 + 2 = 3 + 2`. -/
theorem ts_alpha_beta_count_identity_witness :
    (∀ p ∈ [("A", (1 : ℚ)), ("A", 1), ("A", 0)], p.2 = 0 ∨ p.2 = 1) ∧
    Dict.get? (TS.run [("A", (1 : ℚ)), ("A", 1), ("A", 0)]).total_count "A"
      = some 3 ∧
    Dict.get? (TS.run [("A", (1 : ℚ)), ("A", 1), ("A", 0)]).alpha "A" = some 3 ∧
    Dict.get? (TS.run [("A", (1 : ℚ)), ("A", 1), ("A", 0)]).beta "A" = some 2 ∧
    (3 : ℚ) + 2 = ((3 : ℕ) : ℚ) + 2 := by
  have hrw : ∀ p ∈ [("A", (1 : ℚ)), ("A", 1), ("A", 0)], p.2 = 0 ∨ p.2 = 1 := by
    intro p hp
    simp only [List.mem_cons, List.not_mem_nil, or_false] at hp
    rcases hp with h | h | h <;> subst h <;> norm_num
  have hc : Dict.get? (TS.run [("A", (1 : ℚ)), ("A", 1), ("A", 0)]).total_count "A"
      = some 3 := by
    simp [TS.run, TS.runFrom, TS.update_reward, Dict.get?, Dict.set, Dict.getD]
  have ha : Dict.get? (TS.run [("A", (1 : ℚ)), ("A", 1), ("A", 0)]).alpha "A"
      = some 3 := by
    simp [TS.run, TS.runFrom, TS.update_reward, Dict.get?, Dict.set, Dict.getD]
    norm_num
  have hb : Dict.get? (TS.run [("A", (1 : ℚ)), ("A", 1), ("A", 0)]).beta "A"
      = some 2 := by
    simp [TS.run, TS.runFrom, TS.update_reward, Dict.get?, Dict.set, Dict.getD]
    norm_num
  refine ⟨hrw, hc, ha, hb, ?_⟩
  have := ts_alpha_beta_count_identity _ hrw "A" 3 3 2 hc ha hb
  rw [this]

/-- C10: for `TS` (ThompsonSamplingBandit), `get_reward` never divides by
zero in a reachable state, for arbitrary rational rewards: an arm absent
from `total_count` takes the guard branch and returns 0, and an arm updated
`n ≥ 1` times has denominator `(alpha-1)+(beta-1) = n ≠ 0`. -/
theorem ts_get_reward_no_div_by_zero {α : Type} [DecidableEq α]
    (us : List (α × ℚ)) (arm : α) :
    (Dict.get? (TS.run us).total_count arm = none →
      (TS.run us).get_reward arm = 0) ∧
    (∀ n : ℕ, Dict.get? (TS.run us).total_count arm = some n →
      1 ≤ n ∧
      Dict.getD (TS.run us).alpha arm 0 - 1
        + Dict.getD (TS.run us).beta arm 0 - 1 = (n : ℚ) ∧
      Dict.getD (TS.run us).alpha arm 0 - 1
        + Dict.getD (TS.run us).beta arm 0 - 1 ≠ 0) := by
  constructor
  · intro h
    simp [TS.get_reward, h]
  · intro n hc
    obtain ⟨h1, av, bv, hav, hbv, hsum⟩ := ((TS.inv_run_ts us) arm).2 n hc
    have hga : Dict.getD (TS.run us).alpha arm 0 = av := by simp [Dict.getD, hav]
    have hgb : Dict.getD (TS.run us).beta arm 0 = bv := by simp [Dict.getD, hbv]
    have hden : Dict.getD (TS.run us).alpha arm 0 - 1
        + Dict.getD (TS.run us).beta arm 0 - 1 = (n : ℚ) := by
      rw [hga, hgb]
      linarith
    refine ⟨h1, hden, ?_⟩
    rw [hden]
    have : (0 : ℚ) < (n : ℚ) := by
      exact_mod_cast Nat.lt_of_lt_of_le Nat.zero_lt_one h1
    exact ne_of_gt this

/-- Witness for C10: a single update with the out-of-range reward 5/2 still
leaves a nonzero denominator (count 1). -/
theorem ts_get_reward_no_div_by_zero_witness :
    Dict.get? (TS.run [("A", (5/2 : ℚ))]).total_count "A" = some 1 ∧
    (1 ≤ 1 ∧
      Dict.getD (TS.run [("A", (5/2 : ℚ))]).alpha "A" 0 - 1
        + Dict.getD (TS.run [("A", (5/2 : ℚ))]).beta "A" 0 - 1 = ((1 : ℕ) : ℚ) ∧
      Dict.getD (TS.run [("A", (5/2 : ℚ))]).alpha "A" 0 - 1
        + Dict.getD (TS.run [("A", (5/2 : ℚ))]).beta "A" 0 - 1 ≠ 0) := by
  have hc : Dict.get? (TS.run [("A", (5/2 : ℚ))]).total_count "A" = some 1 := by
    simp [TS.run, TS.runFrom, TS.update_reward, Dict.get?, Dict.set, Dict.getD]
  exact ⟨hc, (ts_get_reward_no_div_by_zero [("A", (5/2 : ℚ))] "A").2 1 hc⟩

namespace TS

variable {α : Type} [DecidableEq α]

/-- The running best after `select_loop`: either nothing reached the seed
(every sample strictly below it), or the result is the LAST arm in the list
whose sample is maximal — because the source compares with `>=`, a later
equal sample replaces the running best. -/
theorem select_loop_best_spec (draw : α → ℚ) (arms : List α) :
    ∀ (ld : Dict α ℚ) (b : Option α × ℚ),
      ((select_loop draw arms ld b).2 = b ∧ ∀ a ∈ arms, draw a < b.2) ∨
      (∃ l₁ l₂ a, arms = l₁ ++ a :: l₂ ∧
        (select_loop draw arms ld b).2 = (some a, draw a) ∧
        b.2 ≤ draw a ∧ (∀ q ∈ l₁, draw q ≤ draw a) ∧
        (∀ q ∈ l₂, draw q < draw a)) := by
  induction arms with
  | nil =>
    intro ld b
    left
    exact ⟨rfl, by simp⟩
  | cons x rest ih =>
    intro ld b
    by_cases hx : b.2 ≤ draw x
    · have hstep : select_loop draw (x :: rest) ld b
          = select_loop draw rest (Dict.set ld x (draw x)) (some x, draw x) := by
        simp [select_loop, hx]
      rw [hstep]
      rcases ih (Dict.set ld x (draw x)) (some x, draw x) with
        ⟨heq, hall⟩ | ⟨l₁, l₂, a, harms, hres, hle, hbef, haft⟩
      · right
        exact ⟨[], rest, x, by simp, heq, hx, by simp, hall⟩
      · right
        refine ⟨x :: l₁, l₂, a, by simp [harms], hres, le_trans hx hle, ?_, haft⟩
        intro q hq
        rcases List.mem_cons.mp hq with hq | hq
        · exact hq ▸ hle
        · exact hbef q hq
    · have hstep : select_loop draw (x :: rest) ld b
          = select_loop draw rest (Dict.set ld x (draw x)) b := by
        simp [select_loop, hx]
      rw [hstep]
      rcases ih (Dict.set ld x (draw x)) b with
        ⟨heq, hall⟩ | ⟨l₁, l₂, a, harms, hres, hle, hbef, haft⟩
      · left
        refine ⟨heq, ?_⟩
        intro q hq
        rcases List.mem_cons.mp hq with hq | hq
        · exact hq ▸ lt_of_not_le hx
        · exact hall q hq
      · right
        refine ⟨x :: l₁, l₂, a, by simp [harms], hres, hle, ?_, haft⟩
        intro q hq
        rcases List.mem_cons.mp hq with hq | hq
        · exact hq ▸ le_of_lt (lt_of_lt_of_le (lt_of_not_le hx) hle)
        · exact hbef q hq

/-- `select_loop` leaves `last_drawn` entries of arms outside the list
untouched. -/
theorem select_loop_ld_not_mem (draw : α → ℚ) (arms : List α) :
    ∀ (ld : Dict α ℚ) (b : Option α × ℚ) (a : α), a ∉ arms →
      Dict.get? (select_loop draw arms ld b).1 a = Dict.get? ld a := by
  induction arms with
  | nil => intro ld b a _; rfl
  | cons x rest ih =>
    intro ld b a ha
    have hax : a ≠ x := fun hc => ha (hc ▸ List.mem_cons_self x rest)
    have harest : a ∉ rest := fun hc => ha (List.mem_cons_of_mem x hc)
    show Dict.get? (select_loop draw rest (Dict.set ld x (draw x)) _).1 a = _
    rw [ih _ _ a harest, Dict.get?_set_ne _ _ _ _ (Ne.symm hax)]

/-- `select_loop` records `draw a` in `last_drawn` for every arm in the
list. -/
theorem select_loop_ld_mem (draw : α → ℚ) (arms : List α) :
    ∀ (ld : Dict α ℚ) (b : Option α × ℚ) (a : α), a ∈ arms →
      Dict.get? (select_loop draw arms ld b).1 a = some (draw a) := by
  induction arms with
  | nil => intro ld b a ha; simp at ha
  | cons x rest ih =>
    intro ld b a ha
    by_cases hmem : a ∈ rest
    · exact ih _ _ a hmem
    · have hax : a = x := by
        rcases List.mem_cons.mp ha with h | h
        · exact h
        · exact absurd h hmem
      subst hax
      show Dict.get? (select_loop draw rest (Dict.set ld a (draw a)) _).1 a = _
      rw [select_loop_ld_not_mem draw rest _ _ a hmem, Dict.get?_set_self]

end TS

/-- Counterexample for C2: with arms "A" then "B" in traversal order and
equal samples 1/2 for both, `get_best_arm` returns "B" — the later equal
sample DID replace the running best (the source compares with `>=`), so the
claim that an equal later sample does not replace the first arm is false. -/
theorem ts_get_best_arm_tie_counterexample :
    Dict.keys (TS.run [("A", (1 : ℚ)), ("B", 1)]).total_count = ["A", "B"] ∧
    (fun _ : String => (1/2 : ℚ)) "A" = (fun _ : String => (1/2 : ℚ)) "B" ∧
    ((TS.run [("A", (1 : ℚ)), ("B", 1)]).get_best_arm
        (fun _ => (1/2 : ℚ))).2 = some ("B", 1/2) := by
  refine ⟨?_, rfl, ?_⟩
  · simp [TS.run, TS.runFrom, TS.update_reward, Dict.keys, Dict.get?, Dict.set,
      Dict.getD]
  · have hkeys : Dict.keys (TS.run [("A", (1 : ℚ)), ("B", 1)]).total_count
        = ["A", "B"] := by
      simp [TS.run, TS.runFrom, TS.update_reward, Dict.keys, Dict.get?, Dict.set,
        Dict.getD]
    rw [TS.get_best_arm, hkeys]
    norm_num [TS.select_loop]

/-- C2 (amended): for `TS` (ThompsonSamplingBandit), `get_best_arm` draws
one sample per ever-updated arm (recording it as that arm's `last_drawn`)
and, provided the samples are nonnegative (Beta samples always are) and at
least one arm exists, returns an arm whose sample is maximal — the LAST
such arm in traversal order, because the source's `>=` comparison lets a
later equal sample replace the running best. -/
theorem ts_get_best_arm_spec {α : Type} [DecidableEq α]
    (s : TS α) (draw : α → ℚ)
    (hpos : ∀ a, 0 ≤ draw a) (hne : Dict.keys s.total_count ≠ []) :
    (∀ a ∈ Dict.keys s.total_count,
      Dict.get? (s.get_best_arm draw).1.last_drawn a = some (draw a)) ∧
    (∃ a l₁ l₂, Dict.keys s.total_count = l₁ ++ a :: l₂ ∧
      (s.get_best_arm draw).2 = some (a, draw a) ∧
      (∀ q ∈ Dict.keys s.total_count, draw q ≤ draw a) ∧
      (∀ q ∈ l₂, draw q < draw a)) := by
  constructor
  · intro a ha
    show Dict.get?
      (TS.select_loop draw (Dict.keys s.total_count) s.last_drawn (none, 0)).1 a
      = some (draw a)
    exact TS.select_loop_ld_mem draw _ _ _ a ha
  · rcases TS.select_loop_best_spec draw (Dict.keys s.total_count)
        s.last_drawn (none, 0) with ⟨_, hall⟩ | ⟨l₁, l₂, a, harms, hres, _, hbef, haft⟩
    · obtain ⟨x, rest, hx⟩ := List.exists_cons_of_ne_nil hne
      have := hall x (hx ▸ List.mem_cons_self x rest)
      have hx0 := hpos x
      norm_num at this
      exact absurd this (not_lt.mpr hx0)
    · refine ⟨a, l₁, l₂, harms, ?_, ?_, haft⟩
      · show (TS.get_best_arm s draw).2 = some (a, draw a)
        rw [TS.get_best_arm]
        simp only [hres]
      · intro q hq
        rw [harms] at hq
        rcases List.mem_append.mp hq with hq | hq
        · exact hbef q hq
        · rcases List.mem_cons.mp hq with hq | hq
          · exact le_of_eq (congrArg draw hq)
          · exact le_of_lt (haft q hq)

/-- Witness for C2 (amended): arms "A" (sample 3/4) and "B" (sample 1/4);
the returned arm is "A" with the maximal sample. -/
theorem ts_get_best_arm_spec_witness :
    (∀ a : String, 0 ≤ (if a = "A" then (3/4 : ℚ) else 1/4)) ∧
    Dict.keys (TS.run [("A", (1 : ℚ)), ("B", 1)]).total_count ≠ [] ∧
    ((∀ a ∈ Dict.keys (TS.run [("A", (1 : ℚ)), ("B", 1)]).total_count,
      Dict.get? ((TS.run [("A", (1 : ℚ)), ("B", 1)]).get_best_arm
          (fun a => if a = "A" then (3/4 : ℚ) else 1/4)).1.last_drawn a
        = some (if a = "A" then (3/4 : ℚ) else 1/4)) ∧
    (∃ a l₁ l₂,
      Dict.keys (TS.run [("A", (1 : ℚ)), ("B", 1)]).total_count = l₁ ++ a :: l₂ ∧
      ((TS.run [("A", (1 : ℚ)), ("B", 1)]).get_best_arm
          (fun a => if a = "A" then (3/4 : ℚ) else 1/4)).2
        = some (a, if a = "A" then (3/4 : ℚ) else 1/4) ∧
      (∀ q ∈ Dict.keys (TS.run [("A", (1 : ℚ)), ("B", 1)]).total_count,
        (if q = "A" then (3/4 : ℚ) else 1/4) ≤ (if a = "A" then (3/4 : ℚ) else 1/4)) ∧
      (∀ q ∈ l₂,
        (if q = "A" then (3/4 : ℚ) else 1/4) < (if a = "A" then (3/4 : ℚ) else 1/4)))) := by
  have hpos : ∀ a : String, 0 ≤ (if a = "A" then (3/4 : ℚ) else 1/4) := by
    intro a
    by_cases h : a = "A" <;> simp [h] <;> norm_num
  have hne : Dict.keys (TS.run [("A", (1 : ℚ)), ("B", 1)]).total_count ≠ [] := by
    simp [TS.run, TS.runFrom, TS.update_reward, Dict.keys, Dict.get?, Dict.set,
      Dict.getD]
  exact ⟨hpos, hne,
    ts_get_best_arm_spec (TS.run [("A", (1 : ℚ)), ("B", 1)])
      (fun a => if a = "A" then (3/4 : ℚ) else 1/4) hpos hne⟩

/-- Dividing every element of a list by a constant divides its sum. -/
theorem list_sum_map_div (l : List ℝ) (c : ℝ) :
    (l.map (fun x => x / c)).sum = l.sum / c := by
  induction l with
  | nil => simp
  | cons x rest ih => simp [ih, add_div]

/-- C8: for `SoftMax` (SoftmaxBandit), `get_prob_list` returns the empty
mapping when no arm is known; otherwise it assigns each known arm the
weight `exp(estimate / tau)` normalized by the total weight, and the values
sum to exactly 1. -/
theorem softmax_get_prob_list_spec {α : Type} [DecidableEq α] (s : SoftMax α) :
    (s.mab.average_reward = [] → s.get_prob_list = []) ∧
    (s.mab.average_reward ≠ [] →
      s.get_prob_list
        = s.mab.average_reward.map
            (fun p => (p.1, Real.exp ((p.2 : ℝ) / (s.tau : ℝ))
                / (s.mab.average_reward.map
                    (fun q => Real.exp ((q.2 : ℝ) / (s.tau : ℝ)))).sum)) ∧
      (s.get_prob_list.map Prod.snd).sum = 1) := by
  constructor
  · intro h
    simp [SoftMax.get_prob_list, h]
  · intro h
    have hW : (0 : ℝ)
        < (s.mab.average_reward.map
            (fun q => Real.exp ((q.2 : ℝ) / (s.tau : ℝ)))).sum := by
      apply List.sum_pos
      · intro x hx
        obtain ⟨q, _, hq⟩ := List.mem_map.mp hx
        exact hq ▸ Real.exp_pos _
      · simpa using h
    have hform : s.get_prob_list
        = s.mab.average_reward.map
            (fun p => (p.1, Real.exp ((p.2 : ℝ) / (s.tau : ℝ))
                / (s.mab.average_reward.map
                    (fun q => Real.exp ((q.2 : ℝ) / (s.tau : ℝ)))).sum)) := by
      simp only [SoftMax.get_prob_list, if_neg h, List.map_map]
      rfl
    refine ⟨hform, ?_⟩
    rw [hform]
    have hvals : (s.mab.average_reward.map
          (fun p => (p.1, Real.exp ((p.2 : ℝ) / (s.tau : ℝ))
              / (s.mab.average_reward.map
                  (fun q => Real.exp ((q.2 : ℝ) / (s.tau : ℝ)))).sum))).map Prod.snd
        = (s.mab.average_reward.map
            (fun q => Real.exp ((q.2 : ℝ) / (s.tau : ℝ)))).map
              (fun x => x / (s.mab.average_reward.map
                  (fun q => Real.exp ((q.2 : ℝ) / (s.tau : ℝ)))).sum) := by
      simp [List.map_map]
    rw [hvals, list_sum_map_div]
    exact div_self (ne_of_gt hW)

/-- Witness for C8: one arm "A" with estimate 1 and `tau = 1`; its single
probability is `exp 1 / exp 1` and the values sum to 1. -/
theorem softmax_get_prob_list_spec_witness :
    (SoftMax.run 1 [("A", (1 : ℚ))]).mab.average_reward ≠ [] ∧
    (((SoftMax.run 1 [("A", (1 : ℚ))]).get_prob_list.map Prod.snd).sum = 1) := by
  have hne : (SoftMax.run 1 [("A", (1 : ℚ))]).mab.average_reward ≠ [] := by
    simp [SoftMax.run, SoftMax.runFrom, SoftMax.update_reward, SoftMax.init,
      MAB.init, MAB.update_reward, Dict.get?, Dict.set, Dict.getD]
  exact ⟨hne,
    ((softmax_get_prob_list_spec (SoftMax.run 1 [("A", (1 : ℚ))])).2 hne).2⟩

/-- C7: for `CMAB` (ContextualRouter), an update under context `x` neither
creates state for a distinct unseen context `y` nor changes its sentinel
results: `get_reward` under `y` is 0 for every arm and `get_best_arm` under
`y` is `(None, None)`. -/
theorem cmab_contextual_isolation {γ α : Type} [DecidableEq γ] [DecidableEq α]
    (s : CMAB γ α) (a : α) (r : ℝ) (x y : γ) (hxy : y ≠ x)
    (hy : Dict.get? s.mab y = none) :
    Dict.get? (s.update_reward a r x).mab y = none ∧
    (∀ a' : α, (s.update_reward a r x).get_reward a' y = 0) ∧
    (s.update_reward a r x).get_best_arm y = none := by
  have hyx : x ≠ y := Ne.symm hxy
  have hkey : Dict.get? (s.update_reward a r x).mab y = none := by
    by_cases hnew : (Dict.get? s.mab x).isSome <;>
      simp [CMAB.update_reward, hnew, Dict.get?_set_ne, hyx, hy]
  refine ⟨hkey, ?_, ?_⟩
  · intro a'
    simp [CMAB.get_reward, hkey]
  · simp [CMAB.get_best_arm, hkey]

/-- Witness for C7: one update under context "x" on a fresh router leaves
context "y" unknown with sentinel results. -/
theorem cmab_contextual_isolation_witness :
    ("y" : String) ≠ "x" ∧
    Dict.get? (CMAB.init : CMAB String String).mab "y" = none ∧
    (Dict.get? ((CMAB.init : CMAB String String).update_reward "a" 1 "x").mab "y"
        = none ∧
      (∀ a' : String,
        ((CMAB.init : CMAB String String).update_reward "a" 1 "x").get_reward a' "y"
          = 0) ∧
      ((CMAB.init : CMAB String String).update_reward "a" 1 "x").get_best_arm "y"
        = none) := by
  have hxy : ("y" : String) ≠ "x" := by decide
  have hy : Dict.get? (CMAB.init : CMAB String String).mab "y" = none := rfl
  exact ⟨hxy, hy, cmab_contextual_isolation CMAB.init "a" 1 "x" "y" hxy hy⟩

namespace MAB

variable {α : Type} [DecidableEq α] {β : Type} [DivisionRing β]

omit [DivisionRing β] in
theorem armRewards_eq_nil_of_not_mem {arm : α} {us : List (α × β)}
    (h : arm ∉ us.map Prod.fst) : armRewards arm us = [] := by
  induction us with
  | nil => rfl
  | cons u rest ih =>
    simp only [List.map_cons, List.mem_cons] at h
    push_neg at h
    simp only [armRewards, List.filter_cons]
    have : ¬(u.1 = arm) := fun hc => h.1 hc.symm
    simp only [this, decide_eq_true_eq, if_false, decide_False]
    exact ih (by simpa using h.2)

/-- An arm never named in the update sequence reads estimate 0. -/
theorem get_reward_eq_zero_of_not_mem (us : List (α × β)) (arm : α)
    (h : arm ∉ us.map Prod.fst) : (run us).get_reward arm = 0 := by
  obtain ⟨he, _⟩ := inv_run us arm
  simp [get_reward, (he (armRewards_eq_nil_of_not_mem h)).2.2]

end MAB

namespace UCB1

variable {α : Type} [DecidableEq α]

theorem update_get?_average_ne (s : UCB1 α) (arm a : α) (r : ℝ) (h : arm ≠ a) :
    Dict.get? (s.update_reward arm r).mab.average_reward a
      = Dict.get? s.mab.average_reward a := by
  by_cases hnew : (Dict.get? s.mab.total_rewards arm).isSome <;>
    simp [update_reward, hnew, Dict.get?_set_ne, h]

theorem runFrom_get?_average_ne (us : List (α × ℝ)) :
    ∀ (s : UCB1 α) (a : α), a ∉ us.map Prod.fst →
      Dict.get? (runFrom s us).mab.average_reward a
        = Dict.get? s.mab.average_reward a := by
  induction us with
  | nil => intro s a _; rfl
  | cons u rest ih =>
    intro s a ha
    simp only [List.map_cons, List.mem_cons] at ha
    push_neg at ha
    show Dict.get? (runFrom (s.update_reward u.1 u.2) rest).mab.average_reward a = _
    rw [ih _ a (by simpa using ha.2),
      update_get?_average_ne _ _ _ _ (fun hc => ha.1 hc.symm)]

end UCB1

namespace TS

variable {α : Type} [DecidableEq α]

theorem runFrom_get?_count_ne (us : List (α × ℚ)) :
    ∀ (s : TS α) (a : α), a ∉ us.map Prod.fst →
      Dict.get? (runFrom s us).total_count a = Dict.get? s.total_count a := by
  induction us with
  | nil => intro s a _; rfl
  | cons u rest ih =>
    intro s a ha
    simp only [List.map_cons, List.mem_cons] at ha
    push_neg at ha
    show Dict.get? (runFrom (s.update_reward u.1 u.2) rest).total_count a = _
    rw [ih _ a (by simpa using ha.2), update_get?_count_ts,
      if_neg (fun hc => ha.1 hc.symm)]

end TS

namespace SoftMax

variable {α : Type} [DecidableEq α]

/-- `SoftMax` inherits `MAB.update_reward` unchanged: running updates only
transforms the embedded `MAB` state. -/
theorem runFrom_mab (us : List (α × ℚ)) :
    ∀ s : SoftMax α, (runFrom s us).mab = MAB.runFrom s.mab us := by
  induction us with
  | nil => intro s; rfl
  | cons u rest ih =>
    intro s
    show (runFrom (s.update_reward u.1 u.2) rest).mab = _
    rw [ih]
    rfl

end SoftMax

/-- C5: for every policy (`MAB`, `UCB1`, `TS`, `SoftMax`), `get_reward` on
an arm that was never updated returns 0, and `get_best_arm` on a policy in
which no arm has ever been updated returns `(None, None)`. -/
theorem unseen_arm_defaults {α : Type} [DecidableEq α] :
    (∀ (us : List (α × ℚ)) (arm : α), arm ∉ us.map Prod.fst →
        (MAB.run us).get_reward arm = 0) ∧
    (∀ (beta : ℝ) (us : List (α × ℝ)) (arm : α), arm ∉ us.map Prod.fst →
        (UCB1.run beta us).get_reward arm = 0) ∧
    (∀ (us : List (α × ℚ)) (arm : α), arm ∉ us.map Prod.fst →
        (TS.run us).get_reward arm = 0) ∧
    (∀ (tau : ℚ) (us : List (α × ℚ)) (arm : α), arm ∉ us.map Prod.fst →
        (SoftMax.run tau us).get_reward arm = 0) ∧
    (MAB.init : MAB α ℚ).get_best_arm = none ∧
    (∀ beta : ℝ, (UCB1.init beta : UCB1 α).get_best_arm = none) ∧
    (∀ draw : α → ℚ, ((TS.init : TS α).get_best_arm draw).2 = none) ∧
    (∀ (tau : ℚ) (choice : ℕ),
        (SoftMax.init tau : SoftMax α).get_best_arm choice = none) := by
  refine ⟨?_, ?_, ?_, ?_, rfl, fun beta => rfl, fun draw => rfl,
    fun tau choice => rfl⟩
  · exact MAB.get_reward_eq_zero_of_not_mem
  · intro beta us arm h
    rw [UCB1.get_reward, MAB.get_reward, UCB1.run,
      UCB1.runFrom_get?_average_ne us _ arm h]
    rfl
  · intro us arm h
    rw [TS.get_reward, TS.run, TS.runFrom_get?_count_ne us _ arm h]
    rfl
  · intro tau us arm h
    rw [SoftMax.get_reward, SoftMax.run, SoftMax.runFrom_mab]
    exact MAB.get_reward_eq_zero_of_not_mem us arm h

/-- Witness for C5: arm "B" is unseen after a single update of arm "A" in
each policy. -/
theorem unseen_arm_defaults_witness :
    (("B" : String) ∉ ([("A", (1 : ℚ))].map Prod.fst) ∧
      ("B" : String) ∉ ([("A", (1 : ℝ))].map Prod.fst)) ∧
    (MAB.run [("A", (1 : ℚ))]).get_reward "B" = 0 ∧
    (UCB1.run 1 [("A", (1 : ℝ))]).get_reward "B" = 0 ∧
    (TS.run [("A", (1 : ℚ))]).get_reward "B" = 0 ∧
    (SoftMax.run 1 [("A", (1 : ℚ))]).get_reward "B" = 0 ∧
    (MAB.init : MAB String ℚ).get_best_arm = none ∧
    (UCB1.init 1 : UCB1 String).get_best_arm = none ∧
    (((TS.init : TS String).get_best_arm (fun _ => 1/2)).2 = none) ∧
    (SoftMax.init 1 : SoftMax String).get_best_arm 0 = none := by
  have hq : ("B" : String) ∉ ([("A", (1 : ℚ))].map Prod.fst) := by simp
  have hr : ("B" : String) ∉ ([("A", (1 : ℝ))].map Prod.fst) := by simp
  obtain ⟨h1, h2, h3, h4, h5, h6, h7, h8⟩ := unseen_arm_defaults (α := String)
  exact ⟨⟨hq, hr⟩, h1 _ "B" hq, h2 1 _ "B" hr, h3 _ "B" hq, h4 1 _ "B" hq,
    h5, h6 1, h7 (fun _ => 1/2), h8 1 0⟩
